import Mathlib

/-!
Verification of the snapshot-retirement engine and the access-list tracer
of this repository (files `turbo/app/snapshots.go` and
`core/vm/access_list_tracer.go`), as a shallow embedding in Lean 4.

Machine integers (`uint64`, `byte`) are embedded as `Nat` with explicit
`% 2 ^ 64` / `% 256` at the points where the Go code can wrap.
-/

namespace Erigon

/-- The modulus of Go's `uint64` arithmetic. -/
def U64 : Nat := 2 ^ 64

/-! ## Uvarint encoding (`encoding/binary.PutUvarint` / `ReadUvarint`)

`doUncompress` writes each record to standard output as
`binary.PutUvarint(numBuf[:], uint64(len(buf)))` followed by the raw bytes;
`doCompress` reads records back with `binary.ReadUvarint`.  Both Go functions
are embedded here byte-for-byte. -/

/-- Embedding of Go `binary.PutUvarint`: little-endian base-128 chunks, the
continuation bit `0x80` set on every byte except the last.  `byte(x)` is
`x % 256`; `byte(x) | 0x80` is `x % 256 ||| 0x80`; `x >>= 7` is `x >>> 7`. -/
def putUvarint (x : Nat) : List Nat :=
  if x < 0x80 then [x % 256]
  else (x % 256 ||| 0x80) :: putUvarint (x >>> 7)
termination_by x
decreasing_by
  simp only [Nat.shiftRight_eq_div_pow]
  exact Nat.div_lt_self (by omega) (by norm_num)

/-- Embedding of the body of Go `binary.ReadUvarint`.  The first argument is
the remaining iteration budget of the `for i := 0; i < MaxVarintLen64; i++`
loop (`fuel = MaxVarintLen64 - i`); `x` and `s` are the accumulator and shift
of the loop.  `none` stands for any error return (`EOF`, `ErrUnexpectedEOF`,
`errOverflow`); the check `fuel == 0` inside the terminating branch is Go's
`i == MaxVarintLen64-1` overflow test on the last byte.  The uint64 shift
`uint64(b) << s` wraps, hence the `% U64`. -/
def readUvarintLoop : Nat → Nat → Nat → List Nat → Option (Nat × List Nat)
  | 0, _, _, _ => none
  | _ + 1, _, _, [] => none
  | fuel + 1, x, s, b :: rest =>
    if b < 0x80 then
      if fuel == 0 && 1 < b then none
      else some (x ||| (b <<< s) % U64, rest)
    else readUvarintLoop fuel (x ||| ((b &&& 0x7f) <<< s) % U64) (s + 7) rest

/-- Embedding of Go `binary.ReadUvarint` (`MaxVarintLen64 = 10`). -/
def readUvarint (bs : List Nat) : Option (Nat × List Nat) :=
  readUvarintLoop 10 0 0 bs

/-! ### Bit-level helper lemmas -/

/-- Disjoint `or` is addition: bits strictly below `2 ^ s` do not overlap a
value shifted left by `s`. -/
theorem lor_low_high (s : Nat) : ∀ a b : Nat, a < 2 ^ s → a ||| b <<< s = a + b * 2 ^ s := by
  induction s with
  | zero =>
    intro a b ha
    interval_cases a
    simp [Nat.shiftLeft_eq]
  | succ s ih =>
    intro a b ha
    have hdecomp : Nat.bit a.bodd a.div2 = a := Nat.bit_decomp a
    have hshift : b <<< (s + 1) = Nat.bit false (b <<< s) := by
      simp [Nat.bit_val, Nat.shiftLeft_eq, Nat.pow_succ]
      ring
    have hdiv : a.div2 < 2 ^ s := by
      have := Nat.div2_val a
      have h2 : (2 : Nat) ^ (s + 1) = 2 ^ s * 2 := by ring
      omega
    calc a ||| b <<< (s + 1)
        = Nat.bit a.bodd a.div2 ||| Nat.bit false (b <<< s) := by rw [hdecomp, hshift]
      _ = Nat.bit (a.bodd || false) (a.div2 ||| b <<< s) := Nat.lor_bit _ _ _ _
      _ = Nat.bit a.bodd (a.div2 + b * 2 ^ s) := by rw [Bool.or_false, ih _ _ hdiv]
      _ = a + b * 2 ^ (s + 1) := by
          have hv := Nat.bit_val a.bodd (a.div2 + b * 2 ^ s)
          have hv' := Nat.bit_val a.bodd a.div2
          rw [hdecomp] at hv'
          have h2 : b * 2 ^ (s + 1) = 2 * (b * 2 ^ s) := by ring
          omega

/-- Masking with `0x7f` is reduction mod 128. -/
theorem land_127 (x : Nat) : x &&& 127 = x % 128 := by
  apply Nat.eq_of_testBit_eq
  intro i
  rw [Nat.testBit_land]
  rw [show (127 : Nat) = 2 ^ 7 - 1 by norm_num, Nat.testBit_two_pow_sub_one,
    show (128 : Nat) = 2 ^ 7 by norm_num, Nat.testBit_mod_two_pow]
  cases h : Nat.testBit x i <;> simp

/-- The continuation byte `byte(x) | 0x80` written by `putUvarint` is
`x % 128 + 128`. -/
theorem byte_or_128 (n : Nat) : n % 256 ||| 0x80 = n % 128 + 128 := by
  have hsplit : n % 256 = n % 128 + 128 * (n % 256 / 128) := by
    have h1 : n % 128 = n % 256 % 128 := (Nat.mod_mod_of_dvd n (by norm_num)).symm
    have h2 := Nat.div_add_mod (n % 256) 128
    omega
  have hcase : n % 256 / 128 = 0 ∨ n % 256 / 128 = 1 := by
    have : n % 256 < 256 := Nat.mod_lt _ (by norm_num)
    have : n % 256 / 128 < 2 := Nat.div_lt_of_lt_mul (by omega)
    omega
  have hbase : n % 128 ||| 1 <<< 7 = n % 128 + 1 * 2 ^ 7 :=
    lor_low_high 7 (n % 128) 1 (Nat.mod_lt _ (by norm_num))
  rcases hcase with h | h
  · rw [show (0x80 : Nat) = 1 <<< 7 by decide]
    rw [hsplit, h]
    simpa using hbase
  · have : n % 256 = n % 128 + 128 := by omega
    rw [this]
    have h1 : n % 128 + 128 = n % 128 ||| 1 <<< 7 := by simpa using hbase.symm
    rw [h1, Nat.lor_assoc, show ((1 : Nat) <<< 7 ||| 0x80) = 1 <<< 7 by decide, ← h1]

/-- The reader inverts the writer: parsing a `putUvarint` encoding followed by
any tail yields the encoded value and the untouched tail, provided the loop
invariants of `ReadUvarint` hold (`s = 7 * (10 - fuel)`, accumulator below
`2 ^ s`, value still representable in the remaining 64 bits). -/
theorem readUvarintLoop_putUvarint :
    ∀ fuel n x s rest, 1 ≤ fuel → fuel ≤ 10 → s = 7 * (10 - fuel) →
      x < 2 ^ s → n * 2 ^ s < U64 →
      readUvarintLoop fuel x s (putUvarint n ++ rest) = some (x + n * 2 ^ s, rest) := by
  intro fuel
  induction fuel with
  | zero => omega
  | succ fuel ih =>
    intro n x s rest _ hf10 hs hx hn
    rw [putUvarint]
    by_cases hsmall : n < 0x80
    · rw [if_pos hsmall]
      have hnmod : n % 256 = n := Nat.mod_eq_of_lt (by omega)
      rw [hnmod]
      show readUvarintLoop (fuel + 1) x s (n :: rest) = _
      rw [readUvarintLoop]
      rw [if_pos (by exact_mod_cast hsmall)]
      have hcheck : (fuel == 0 && decide (1 < n)) = false := by
        rcases Nat.eq_zero_or_pos fuel with h0 | hpos
        · subst h0
          have hs63 : s = 63 := by omega
          have hlt : n < 2 := by
            by_contra hge
            push_neg at hge
            have hmul : 2 * 2 ^ s ≤ n * 2 ^ s := Nat.mul_le_mul_right _ hge
            rw [hs63] at hmul hn
            have hU : U64 = 2 * 2 ^ 63 := by rw [U64]; ring
            omega
          simp
          omega
        · simp
          omega
      rw [hcheck]
      simp only [Bool.false_eq_true, if_false]
      have hshift : n <<< s % U64 = n * 2 ^ s := by
        rw [Nat.shiftLeft_eq]
        exact Nat.mod_eq_of_lt hn
      rw [hshift, show n * 2 ^ s = n * 2 ^ s by rfl]
      rw [show x ||| n * 2 ^ s = x ||| n <<< s by rw [Nat.shiftLeft_eq]]
      rw [lor_low_high s x n hx]
    · rw [if_neg hsmall]
      push_neg at hsmall
      show readUvarintLoop (fuel + 1) x s ((n % 256 ||| 0x80) :: (putUvarint (n >>> 7) ++ rest)) = _
      rw [readUvarintLoop]
      rw [byte_or_128]
      rw [if_neg (by omega)]
      have hb : (n % 128 + 128) &&& 0x7f = n % 128 := by
        rw [show (0x7f : Nat) = 127 by rfl, land_127]
        omega
      rw [hb]
      have hfuel1 : 1 ≤ fuel := by
        by_contra h0
        have hf0 : fuel = 0 := by omega
        subst hf0
        have hs63 : s = 63 := by omega
        have hmul : 128 * 2 ^ s ≤ n * 2 ^ s := Nat.mul_le_mul_right _ hsmall
        rw [hs63] at hmul hn
        have hU : 64 * U64 = 128 * 2 ^ 63 := by rw [U64]; ring
        omega
      have hmod128 : n % 128 < 128 := Nat.mod_lt _ (by norm_num)
      have hlow : n % 128 * 2 ^ s < U64 := by
        have h1 : n % 128 ≤ n := Nat.mod_le _ _
        have : n % 128 * 2 ^ s ≤ n * 2 ^ s := Nat.mul_le_mul_right _ h1
        omega
      have hshift : (n % 128) <<< s % U64 = n % 128 * 2 ^ s := by
        rw [Nat.shiftLeft_eq]
        exact Nat.mod_eq_of_lt hlow
      rw [hshift, show x ||| n % 128 * 2 ^ s = x ||| (n % 128) <<< s by rw [Nat.shiftLeft_eq]]
      rw [lor_low_high s x (n % 128) hx]
      have hpow : (2 : Nat) ^ (s + 7) = 2 ^ s * 128 := by
        rw [pow_add]
        norm_num
      have hx' : x + n % 128 * 2 ^ s < 2 ^ (s + 7) := by
        have : n % 128 * 2 ^ s ≤ 127 * 2 ^ s := Nat.mul_le_mul_right _ (by omega)
        have h2s : 0 < 2 ^ s := Nat.pos_pow_of_pos _ (by norm_num)
        rw [hpow]
        nlinarith
      have hdivle : n >>> 7 * 2 ^ (s + 7) ≤ n * 2 ^ s := by
        rw [Nat.shiftRight_eq_div_pow, hpow, show (2 : Nat) ^ 7 = 128 by norm_num]
        calc n / 128 * (2 ^ s * 128) = n / 128 * 128 * 2 ^ s := by ring
          _ ≤ n * 2 ^ s := Nat.mul_le_mul_right _ (Nat.div_mul_le_self n 128)
      have := ih (n >>> 7) (x + n % 128 * 2 ^ s) (s + 7) rest hfuel1 (by omega)
        (by omega) hx' (by omega)
      rw [this]
      congr 2
      have hda : 128 * (n / 128) + n % 128 = n := Nat.div_add_mod n 128
      rw [Nat.shiftRight_eq_div_pow, show (2 : Nat) ^ 7 = 128 by norm_num]
      calc x + n % 128 * 2 ^ s + n / 128 * 2 ^ (s + 7)
          = x + (128 * (n / 128) + n % 128) * 2 ^ s := by rw [hpow]; ring
        _ = x + n * 2 ^ s := by rw [hda]

/-- `ReadUvarint` inverts `PutUvarint` on every value representable as a Go
`uint64`, leaving the rest of the stream untouched. -/
theorem readUvarint_putUvarint (n : Nat) (rest : List Nat) (h : n < U64) :
    readUvarint (putUvarint n ++ rest) = some (n, rest) := by
  rw [readUvarint]
  have := readUvarintLoop_putUvarint 10 n 0 0 rest (by norm_num) (by norm_num)
    (by norm_num) (by norm_num) (by simpa using h)
  simpa using this

/-- A `putUvarint` encoding is never empty. -/
theorem putUvarint_length_pos (n : Nat) : 1 ≤ (putUvarint n).length := by
  rw [putUvarint]
  by_cases h : n < 0x80
  · simp [h]
  · simp [h]

/-! ## The `compress` and `uncompress` commands (`doCompress` / `doUncompress`)

`doCompress` reads `(uvarint length, raw bytes)` pairs from standard input in
a loop (`binary.ReadUvarint`, then `io.ReadFull` of exactly that many bytes),
feeding each payload to the codec writer with `c.AddWord(buf)`; a clean `EOF`
at a record boundary ends the loop, any other read error aborts.
`doUncompress` iterates the codec cursor and writes each decoded record to
standard output as `binary.PutUvarint(len)` followed by the raw bytes.

The codec itself (`compress.Compressor` / `compress.Decompressor` from
erigon-lib) is not part of this repository's sources. -/

/-- Modelled from the spec: the codec capability of §4.1 (missing from the
sources; only its call sites `doCompress`/`doUncompress` are present).  Per
the spec it "builds a segment file by ingesting an ordered sequence of byte
records, and later serves a forward-only cursor over the decoded record
sequence", so a sealed segment file is faithfully represented by the ordered
list of records (`AddWord` arguments) it contains, and the read cursor
(`MakeGetter`/`HasNext`/`Next`) yields exactly that list in order. -/
structure SegmentFile where
  words : List (List Nat)

/-- Embedding of the read loop of `doCompress`: parse standard input as a
sequence of `(uvarint length, raw bytes)` pairs.  The fuel argument is a
bound on the number of loop iterations; each iteration consumes at least one
byte of the finite stream, so `input.length` iterations always suffice.
`none` models an error return (truncated varint, truncated payload). -/
def parseLoop : Nat → List Nat → Option (List (List Nat))
  | _, [] => some []
  | 0, _ :: _ => none
  | fuel + 1, b :: bs =>
    match readUvarint (b :: bs) with
    | none => none
    | some (l, rest) =>
      if rest.length < l then none
      else (parseLoop fuel (rest.drop l)).map (fun ws => rest.take l :: ws)

/-- Embedding of `doCompress`: the segment file produced from a stdin stream,
or `none` on a malformed stream. -/
def doCompress (input : List Nat) : Option SegmentFile :=
  (parseLoop input.length input).map SegmentFile.mk

/-- Embedding of the write loop of `doUncompress`: every decoded record goes
to standard output as its uvarint-encoded length followed by its raw bytes. -/
def doUncompressOutput (f : SegmentFile) : List Nat :=
  f.words.flatMap (fun w => putUvarint w.length ++ w)

/-- A finite sequence of byte records, presented as the stream of
`(uvarint length, raw bytes)` pairs that the claim feeds to `compress`. -/
def encodeRecords (rs : List (List Nat)) : List Nat :=
  rs.flatMap (fun r => putUvarint r.length ++ r)

/-- Each record contributes at least one byte (its length prefix) to the
encoded stream. -/
theorem length_le_encodeRecords (rs : List (List Nat)) :
    rs.length ≤ (encodeRecords rs).length := by
  induction rs with
  | nil => simp [encodeRecords]
  | cons r t ih =>
    have h := putUvarint_length_pos r.length
    simp only [encodeRecords, List.flatMap_cons, List.length_append, List.length_cons] at *
    omega

/-- The compress-side parser inverts the encoding, for any iteration budget
at least the number of records. -/
theorem parseLoop_encodeRecords :
    ∀ rs : List (List Nat), ∀ fuel,
      (∀ r ∈ rs, r.length < U64) → rs.length ≤ fuel →
      parseLoop fuel (encodeRecords rs) = some rs := by
  intro rs
  induction rs with
  | nil => intro fuel _ _; simp [encodeRecords, parseLoop]
  | cons r t ih =>
    intro fuel hlen hfuel
    obtain ⟨fuel', rfl⟩ : ∃ fuel', fuel = fuel' + 1 := by
      cases fuel with
      | zero => simp at hfuel
      | succ k => exact ⟨k, rfl⟩
    have henc : encodeRecords (r :: t) = putUvarint r.length ++ (r ++ encodeRecords t) := by
      simp [encodeRecords]
    cases hput : putUvarint r.length with
    | nil =>
      have := putUvarint_length_pos r.length
      rw [hput] at this
      simp at this
    | cons c cs =>
      rw [henc, hput]
      show parseLoop (fuel' + 1) (c :: (cs ++ (r ++ encodeRecords t))) = _
      rw [parseLoop]
      have hread : readUvarint (c :: (cs ++ (r ++ encodeRecords t))) =
          some (r.length, r ++ encodeRecords t) := by
        rw [show c :: (cs ++ (r ++ encodeRecords t)) =
          (c :: cs) ++ (r ++ encodeRecords t) by simp, ← hput]
        exact readUvarint_putUvarint r.length _ (hlen r (by simp))
      rw [hread]
      have hnotshort : ¬ (r ++ encodeRecords t).length < r.length := by
        simp
      dsimp only
      rw [if_neg hnotshort]
      have htake : (r ++ encodeRecords t).take r.length = r := List.take_left r _
      have hdrop : (r ++ encodeRecords t).drop r.length = encodeRecords t := List.drop_left r _
      rw [htake, hdrop, ih fuel' (fun x hx => hlen x (by simp [hx])) (by simp at hfuel; omega)]
      rfl

/-- C1.  Round-trip law for the `compress` / `uncompress` commands: a stream
of `(uvarint length, raw bytes)` pairs fed to `compress` yields a segment
file whose record sequence is exactly the original records, and running
`uncompress` on that file writes the original stream back to standard
output bit-exactly, in the same order. -/
theorem compress_uncompress_roundtrip (rs : List (List Nat))
    (h : ∀ r ∈ rs, r.length < U64) :
    doCompress (encodeRecords rs) = some ⟨rs⟩ ∧
      (doCompress (encodeRecords rs)).map doUncompressOutput = some (encodeRecords rs) := by
  have hparse : parseLoop (encodeRecords rs).length (encodeRecords rs) = some rs :=
    parseLoop_encodeRecords rs _ h (length_le_encodeRecords rs)
  constructor
  · rw [doCompress, hparse]
    rfl
  · rw [doCompress, hparse]
    simp [doUncompressOutput, encodeRecords]

/-- Witness for C1 at a concrete record sequence. -/
theorem compress_uncompress_roundtrip_witness :
    (∀ r ∈ [[1, 2, 3], [], [255, 0]], List.length r < U64) ∧
      doCompress (encodeRecords [[1, 2, 3], [], [255, 0]]) = some ⟨[[1, 2, 3], [], [255, 0]]⟩ ∧
      (doCompress (encodeRecords [[1, 2, 3], [], [255, 0]])).map doUncompressOutput =
        some (encodeRecords [[1, 2, 3], [], [255, 0]]) := by
  refine ⟨by decide, compress_uncompress_roundtrip [[1, 2, 3], [], [255, 0]] (by decide)⟩

/-! ## The `retire` command (`doRetireCommand`)

`doRetireCommand` is embedded as the trace of its externally visible
operations: block-retirement calls, read-write transactions opened with
`db.Update` (with the list of store operations performed inside each), and
the history-aggregation phases.  The loop
`for i := from; i < to; i += every` is embedded with an explicit iteration
budget; each iteration advances `i` by `every`, so for `every > 0` a budget
of `to - from` iterations is never exhausted. -/

/-- A store operation performed inside one `db.Update` read-write
transaction of `doRetireCommand`. -/
inductive TxOp where
  | writeSnapshots
  | pruneAncientBlocks
  | aggPrune
deriving DecidableEq, Repr

/-- An externally visible step of `doRetireCommand`. -/
inductive RetireEvent where
  | retireBlocks (lo hi : Nat)
  | rwTx (ops : List TxOp)
  | buildMissedIndices
  | setTxNum (v : Nat)
  | buildFiles
  | mergeLoop
deriving DecidableEq, Repr

/-- One iteration of the retire loop: `br.RetireBlocks(ctx, i, i+every)`,
then a single `db.Update` transaction that performs
`rawdb.WriteSnapshots` followed by `10_000` iterations of
`br.PruneAncientBlocks(tx)` (the `for j := 0; j < 10_000; j++` loop runs
inside the same transaction closure). -/
def retireStepEvents (i every : Nat) : List RetireEvent :=
  [.retireBlocks i (i + every),
   .rwTx (.writeSnapshots :: List.replicate 10000 .pruneAncientBlocks)]

/-- Embedding of `for i := from; i < to; i += every` in `doRetireCommand`. -/
def retireLoopEvents : Nat → Nat → Nat → Nat → List RetireEvent
  | 0, _, _, _ => []
  | fuel + 1, i, toBlock, every =>
    if i < toBlock then
      retireStepEvents i every ++ retireLoopEvents fuel (i + every) toBlock every
    else []

/-- One state-history prune pass of `doRetireCommand`:
`for i := 0; i < 1024; i++` each iteration opening its own `db.Update`
transaction that runs one `agg.Prune` call. -/
def historyPruneBatch : List RetireEvent :=
  List.replicate 1024 (.rwTx [.aggPrune])

/-- The history-aggregation phases of `doRetireCommand`, executed when
`kvcfg.HistoryV3` is enabled: prune batch, `agg.BuildMissedIndices`, the
`db.View` transaction that reads the execution stage progress and sets
`agg.SetTxNum(rawdb.TxNums.Max(tx, execProgress))`, `agg.BuildFiles`,
`agg.MergeLoop`, and a second prune batch.  `execProgress` models
`stages.GetStageProgress(tx, stages.Execution)` and `txMax` models
`rawdb.TxNums.Max` at the current transaction. -/
def historyEvents (execProgress : Nat) (txMax : Nat → Nat) : List RetireEvent :=
  historyPruneBatch ++
    [.buildMissedIndices, .setTxNum (txMax execProgress), .buildFiles, .mergeLoop] ++
    historyPruneBatch

/-- Embedding of `doRetireCommand`: the full trace of one invocation.
`historyV3` models `kvcfg.HistoryV3.FromDB(db)` (an early `return nil` when
disabled). -/
def doRetireEvents (fromBlock toBlock every : Nat) (historyV3 : Bool)
    (execProgress : Nat) (txMax : Nat → Nat) : List RetireEvent :=
  retireLoopEvents (toBlock - fromBlock) fromBlock toBlock every ++
    if historyV3 then historyEvents execProgress txMax else []

/-- Number of sub-ranges the retire loop processes: the `k` with
`fromBlock + k * every < toBlock`. -/
def retireNumSteps (fromBlock toBlock every : Nat) : Nat :=
  (toBlock - fromBlock + every - 1) / every

/-- Advancing the loop start by `every` drops exactly one step. -/
theorem retireNumSteps_succ (i toBlock every : Nat) (he : 0 < every) (hi : i < toBlock) :
    retireNumSteps i toBlock every = retireNumSteps (i + every) toBlock every + 1 := by
  rw [retireNumSteps, retireNumSteps]
  have hd : 1 ≤ toBlock - i := by omega
  rw [show toBlock - i + every - 1 = (toBlock - i - 1) + every by omega, Nat.add_div_right _ he]
  by_cases hcase : toBlock - i ≤ every
  · have h1 : toBlock - (i + every) = 0 := by omega
    rw [h1]
    rw [Nat.div_eq_of_lt (by omega), Nat.div_eq_of_lt (by omega)]
  · rw [show toBlock - (i + every) + every - 1 = (toBlock - i - 1) by omega]

/-- `k` is a processed step index exactly when its sub-range start is below
`toBlock`. -/
theorem retireNumSteps_lt_iff (fromBlock toBlock every k : Nat) (he : 0 < every) :
    k < retireNumSteps fromBlock toBlock every ↔ fromBlock + k * every < toBlock := by
  rw [retireNumSteps, Nat.lt_iff_add_one_le, Nat.le_div_iff_mul_le he]
  have h1 : (k + 1) * every = k * every + every := by ring
  omega

/-- The retire loop, on any sufficient iteration budget, is exactly the
concatenation of the per-sub-range step traces, in ascending order of `k`. -/
theorem retireLoopEvents_eq_flatMap (every : Nat) (he : 0 < every) :
    ∀ fuel i toBlock, toBlock - i ≤ fuel →
      retireLoopEvents fuel i toBlock every =
        (List.range (retireNumSteps i toBlock every)).flatMap
          (fun k => retireStepEvents (i + k * every) every) := by
  intro fuel
  induction fuel with
  | zero =>
    intro i toBlock hle
    have h0 : retireNumSteps i toBlock every = 0 := by
      rw [retireNumSteps, show toBlock - i + every - 1 = every - 1 by omega]
      exact Nat.div_eq_of_lt (by omega)
    rw [h0]
    rfl
  | succ fuel ih =>
    intro i toBlock hle
    rw [retireLoopEvents]
    by_cases hi : i < toBlock
    · rw [if_pos hi]
      rw [ih (i + every) toBlock (by omega)]
      rw [retireNumSteps_succ i toBlock every he hi, List.range_succ_eq_map]
      rw [List.flatMap_cons, List.flatMap_map]
      congr 1
      · simp
      · apply List.flatMap_congr
        intro k _
        congr 1
        rw [Nat.succ_eq_add_one]
        ring
    · rw [if_neg hi]
      have h0 : retireNumSteps i toBlock every = 0 := by
        rw [retireNumSteps, show toBlock - i + every - 1 = every - 1 by omega]
        exact Nat.div_eq_of_lt (by omega)
      rw [h0]
      rfl

/-- Every event emitted by the retire loop itself is a block-retirement call
or a read-write transaction. -/
theorem retireLoopEvents_shape :
    ∀ fuel i toBlock every ev, ev ∈ retireLoopEvents fuel i toBlock every →
      (∃ lo hi, ev = .retireBlocks lo hi) ∨ ∃ ops, ev = .rwTx ops := by
  intro fuel
  induction fuel with
  | zero => intro i toBlock every ev h; simp [retireLoopEvents] at h
  | succ fuel ih =>
    intro i toBlock every ev h
    rw [retireLoopEvents] at h
    by_cases hi : i < toBlock
    · rw [if_pos hi] at h
      rcases List.mem_append.1 h with h | h
      · simp only [retireStepEvents, List.mem_cons, List.not_mem_nil, or_false] at h
        rcases h with h | h
        · exact Or.inl ⟨i, i + every, h⟩
        · exact Or.inr ⟨_, h⟩
      · exact ih _ _ _ _ h
    · rw [if_neg hi] at h
      simp at h

/-- C5.  For `from < to` the retire command processes exactly the sub-ranges
`[from + k*every, from + (k+1)*every)` for the `k` with
`from + k*every < to`, in ascending order of `k`; after retiring each
sub-range it opens one read-write transaction that writes the current
segment-file and aggregator-file lists as chain metadata and then prunes,
before moving on to the next sub-range. -/
theorem retire_subranges_in_order (fromBlock toBlock every : Nat) (he : 0 < every) :
    retireLoopEvents (toBlock - fromBlock) fromBlock toBlock every =
      (List.range (retireNumSteps fromBlock toBlock every)).flatMap
        (fun k =>
          [RetireEvent.retireBlocks (fromBlock + k * every) (fromBlock + k * every + every),
           RetireEvent.rwTx
             (TxOp.writeSnapshots :: List.replicate 10000 TxOp.pruneAncientBlocks)]) ∧
    ∀ k, k < retireNumSteps fromBlock toBlock every ↔ fromBlock + k * every < toBlock :=
  ⟨retireLoopEvents_eq_flatMap every he _ fromBlock toBlock le_rfl,
   fun k => retireNumSteps_lt_iff fromBlock toBlock every k he⟩

/-- Witness for C5 at `from = 0`, `to = 2000`, `every = 1000`. -/
theorem retire_subranges_in_order_witness :
    (0 : Nat) < 1000 ∧
      (retireLoopEvents (2000 - 0) 0 2000 1000 =
        (List.range (retireNumSteps 0 2000 1000)).flatMap
          (fun k =>
            [RetireEvent.retireBlocks (0 + k * 1000) (0 + k * 1000 + 1000),
             RetireEvent.rwTx
               (TxOp.writeSnapshots :: List.replicate 10000 TxOp.pruneAncientBlocks)]) ∧
        ∀ k, k < retireNumSteps 0 2000 1000 ↔ 0 + k * 1000 < 2000) :=
  ⟨by decide, retire_subranges_in_order 0 2000 1000 (by decide)⟩

/-- C6.  With history mode enabled, the history-aggregation phases of one
retire invocation run in the fixed order: prune batch, build missed indices,
watermark computation (`agg.SetTxNum` of the max transaction number of the
execution stage's committed progress), build files, merge loop, prune batch
again; in particular the watermark is set, from execution-stage progress,
before any history file is built. -/
theorem retire_history_phase_order (fromBlock toBlock every execProgress : Nat)
    (txMax : Nat → Nat) :
    doRetireEvents fromBlock toBlock every true execProgress txMax =
      retireLoopEvents (toBlock - fromBlock) fromBlock toBlock every ++
        (List.replicate 1024 (RetireEvent.rwTx [TxOp.aggPrune]) ++
          [RetireEvent.buildMissedIndices, RetireEvent.setTxNum (txMax execProgress),
           RetireEvent.buildFiles, RetireEvent.mergeLoop] ++
          List.replicate 1024 (RetireEvent.rwTx [TxOp.aggPrune])) ∧
    ∃ pre post,
      doRetireEvents fromBlock toBlock every true execProgress txMax =
        pre ++ RetireEvent.setTxNum (txMax execProgress) :: RetireEvent.buildFiles :: post ∧
      RetireEvent.buildFiles ∉ pre ∧ ∀ v, RetireEvent.setTxNum v ∉ post := by
  refine ⟨rfl, retireLoopEvents (toBlock - fromBlock) fromBlock toBlock every ++
      (List.replicate 1024 (RetireEvent.rwTx [TxOp.aggPrune]) ++
        [RetireEvent.buildMissedIndices]),
    [RetireEvent.mergeLoop] ++ List.replicate 1024 (RetireEvent.rwTx [TxOp.aggPrune]),
    ?_, ?_, ?_⟩
  · show retireLoopEvents (toBlock - fromBlock) fromBlock toBlock every ++
      (historyPruneBatch ++
        [RetireEvent.buildMissedIndices, RetireEvent.setTxNum (txMax execProgress),
         RetireEvent.buildFiles, RetireEvent.mergeLoop] ++ historyPruneBatch) = _
    rw [historyPruneBatch]
    simp only [List.append_assoc, List.cons_append, List.singleton_append, List.nil_append]
  · intro h
    rcases List.mem_append.1 h with h | h
    · rcases retireLoopEvents_shape _ _ _ _ _ h with ⟨lo, hi, h⟩ | ⟨ops, h⟩ <;> simp at h
    · rcases List.mem_append.1 h with h | h
      · have h2 := List.eq_of_mem_replicate h
        simp at h2
      · simp at h
  · intro v h
    rcases List.mem_append.1 h with h | h
    · simp at h
    · have h2 := List.eq_of_mem_replicate h
      simp at h2

/-- The number of prune operations performed inside each read-write
transaction that the trace opens, in order. -/
def txPruneCounts (evs : List RetireEvent) : List Nat :=
  evs.filterMap (fun ev =>
    match ev with
    | .rwTx ops => some (ops.count .pruneAncientBlocks + ops.count .aggPrune)
    | _ => none)

/-- `txPruneCounts` distributes over concatenation of traces. -/
theorem txPruneCounts_append (a b : List RetireEvent) :
    txPruneCounts (a ++ b) = txPruneCounts a ++ txPruneCounts b := by
  simp [txPruneCounts, List.filterMap_append]

/-- Each retire-loop step opens exactly one transaction, and that single
transaction carries all `10_000` prune iterations for the sub-range. -/
theorem txPruneCounts_retireStep (i every : Nat) :
    txPruneCounts (retireStepEvents i every) = [10000] := by
  show [List.count TxOp.pruneAncientBlocks
          (TxOp.writeSnapshots :: List.replicate 10000 TxOp.pruneAncientBlocks) +
        List.count TxOp.aggPrune
          (TxOp.writeSnapshots :: List.replicate 10000 TxOp.pruneAncientBlocks)] = [10000]
  rw [List.count_cons, List.count_cons, List.count_replicate, List.count_replicate]
  simp

/-- C2 counterexample: retiring the single sub-range `[0, 1000)` opens
exactly one read-write transaction, and that one transaction performs all
`10_000` prune iterations (together with the metadata write) — the prune is
not spread over many bounded transactions. -/
theorem retire_prune_single_tx_counterexample :
    doRetireEvents 0 1000 1000 false 0 (fun _ => 0) =
      [RetireEvent.retireBlocks 0 1000,
       RetireEvent.rwTx
         (TxOp.writeSnapshots :: List.replicate 10000 TxOp.pruneAncientBlocks)] ∧
    txPruneCounts (doRetireEvents 0 1000 1000 false 0 (fun _ => 0)) = [10000] := by
  constructor
  · rfl
  · show txPruneCounts ((retireStepEvents 0 1000 ++ []) ++ []) = [10000]
    rw [List.append_nil, List.append_nil, txPruneCounts_retireStep]

/-- Prune counts per transaction over a whole retire invocation: one
transaction per sub-range carrying all `10_000` block-prune iterations, then
(when history mode is on) `2 × 1024` history-prune transactions of one
bounded prune call each. -/
theorem retire_prune_transaction_counts (fromBlock toBlock every execProgress : Nat)
    (txMax : Nat → Nat) (hv : Bool) (he : 0 < every) :
    txPruneCounts (doRetireEvents fromBlock toBlock every hv execProgress txMax) =
      List.replicate (retireNumSteps fromBlock toBlock every) 10000 ++
        (if hv then List.replicate 2048 1 else []) := by
  rw [doRetireEvents, txPruneCounts_append]
  congr 1
  · rw [retireLoopEvents_eq_flatMap every he _ fromBlock toBlock le_rfl]
    generalize retireNumSteps fromBlock toBlock every = n
    induction n with
    | zero => rfl
    | succ n ih =>
      rw [List.range_succ, List.flatMap_append, txPruneCounts_append, ih]
      simp [txPruneCounts_retireStep, List.replicate_succ']
  · cases hv
    · rfl
    · show txPruneCounts (historyEvents execProgress txMax) = List.replicate 2048 1
      have hgen : ∀ n, txPruneCounts (List.replicate n (RetireEvent.rwTx [TxOp.aggPrune])) =
          List.replicate n 1 := by
        intro n
        induction n with
        | zero => rfl
        | succ n ih =>
          rw [List.replicate_succ, List.replicate_succ]
          show (1 : Nat) :: txPruneCounts (List.replicate n (RetireEvent.rwTx [TxOp.aggPrune])) =
            1 :: List.replicate n 1
          rw [ih]
      have hpcount : txPruneCounts historyPruneBatch = List.replicate 1024 1 := hgen 1024
      rw [historyEvents, txPruneCounts_append, txPruneCounts_append, hpcount]
      rw [show txPruneCounts
        [RetireEvent.buildMissedIndices, RetireEvent.setTxNum (txMax execProgress),
         RetireEvent.buildFiles, RetireEvent.mergeLoop] = [] from rfl]
      rw [List.append_nil]
      rw [show (2048 : Nat) = 1024 + 1024 by norm_num, List.replicate_add]

/-- Witness for the amended C2 at `from = 0`, `to = 2000`, `every = 1000`,
history mode on. -/
theorem retire_prune_transaction_counts_witness :
    (0 : Nat) < 1000 ∧
      txPruneCounts (doRetireEvents 0 2000 1000 true 7 (fun _ => 0)) =
        List.replicate (retireNumSteps 0 2000 1000) 10000 ++
          (if true then List.replicate 2048 1 else []) :=
  ⟨by decide, retire_prune_transaction_counts 0 2000 1000 7 (fun _ => 0) true (by decide)⟩

/-! ## The `create` command (`doSnapshotCommand` and `snapshotBlocks`)

`doSnapshotCommand` validates `--segment.size`, performs its I/O setup
(`dir.MustExist` three times, `MustOpen` of the chain database), runs
`snapshotBlocks` — whose error is only logged (`log.Error`) and not
returned — and then reopens the snapshot folder, constructs the aggregator,
reopens its files and persists the file lists, returning the first error of
those later phases.  The embedding keeps the outcome of each externally
performed phase abstract as a `Bool` failure flag and records the emitted
I/O side effects in order. -/

/-- An error value returned by `doSnapshotCommand`. -/
inductive SnapErr where
  | tooSmallSegmentSize (n : Nat)
  | reopenFolder
  | newAggregator
  | reopenFiles
  | writeSnapshotsTx
deriving DecidableEq, Repr

/-- An externally visible side effect of `doSnapshotCommand`, in program
order. -/
inductive SnapEvent where
  | mkdirSnap
  | mkdirSnapHistory
  | mkdirTmp
  | openChainDB
  | runSnapshotBlocks
  | logSnapshotBlocksError
deriving DecidableEq, Repr

/-- Abstract outcome of each phase `doSnapshotCommand` delegates to:
`true` means the phase fails.  `snapshotBlocksFail` models a non-nil error
from `snapshotBlocks`, and so on for `allSnapshots.ReopenFolder`,
`libstate.NewAggregator22`, `agg.ReopenFiles` and the `db.Update` that runs
`rawdb.WriteSnapshots`. -/
structure SnapPhases where
  snapshotBlocksFail : Bool
  reopenFolderFail : Bool
  newAggregatorFail : Bool
  reopenFilesFail : Bool
  writeSnapshotsFail : Bool
deriving DecidableEq, Repr

/-- Embedding of `doSnapshotCommand`: the returned error (or `none` for a
zero exit status) and the emitted side effects. -/
def doSnapshotCommand (segmentSize : Nat) (ph : SnapPhases) :
    Option SnapErr × List SnapEvent :=
  if segmentSize < 1000 then (some (.tooSmallSegmentSize segmentSize), [])
  else
    let evs := [SnapEvent.mkdirSnap, SnapEvent.mkdirSnapHistory, SnapEvent.mkdirTmp,
      SnapEvent.openChainDB, SnapEvent.runSnapshotBlocks]
    let evs := evs ++ if ph.snapshotBlocksFail then [SnapEvent.logSnapshotBlocksError] else []
    if ph.reopenFolderFail then (some .reopenFolder, evs)
    else if ph.newAggregatorFail then (some .newAggregator, evs)
    else if ph.reopenFilesFail then (some .reopenFiles, evs)
    else if ph.writeSnapshotsFail then (some .writeSnapshotsTx, evs)
    else (none, evs)

/-- C3 counterexample: a run in which the block-dumping phase
(`snapshotBlocks`) fails while every later phase succeeds ends with
`doSnapshotCommand` returning no error at all — the failure is only
logged. -/
theorem create_swallows_dump_error_counterexample :
    (doSnapshotCommand 1000 ⟨true, false, false, false, false⟩).1 = none ∧
      SnapEvent.logSnapshotBlocksError ∈ (doSnapshotCommand 1000 ⟨true, false, false, false, false⟩).2 := by
  constructor
  · rfl
  · decide

/-- Amended C3: `doSnapshotCommand` returns a non-nil error exactly when the
configuration check or one of the later phases (snapshot-folder reopen,
aggregator construction, aggregator file reopen, metadata write) fails; an
error from the block-dumping phase `snapshotBlocks` is logged and does not
affect the exit status. -/
theorem create_error_propagation (segmentSize : Nat) (ph : SnapPhases)
    (hsz : 1000 ≤ segmentSize) :
    ((doSnapshotCommand segmentSize ph).1 = none ↔
      ph.reopenFolderFail = false ∧ ph.newAggregatorFail = false ∧
        ph.reopenFilesFail = false ∧ ph.writeSnapshotsFail = false) ∧
    (doSnapshotCommand segmentSize ph).1 =
      (doSnapshotCommand segmentSize { ph with snapshotBlocksFail := false }).1 ∧
    (ph.snapshotBlocksFail = true →
      SnapEvent.logSnapshotBlocksError ∈ (doSnapshotCommand segmentSize ph).2) := by
  have hns : ¬ segmentSize < 1000 := by omega
  obtain ⟨sb, rf, na, rfi, ws⟩ := ph
  refine ⟨?_, ?_, ?_⟩ <;>
    simp only [doSnapshotCommand, if_neg hns] <;>
    cases sb <;> cases rf <;> cases na <;> cases rfi <;> cases ws <;> simp

/-- Witness for the amended C3. -/
theorem create_error_propagation_witness :
    (1000 : Nat) ≤ 1000 ∧
      ((((doSnapshotCommand 1000 ⟨true, false, false, false, false⟩).1 = none ↔
        (⟨true, false, false, false, false⟩ : SnapPhases).reopenFolderFail = false ∧
          (⟨true, false, false, false, false⟩ : SnapPhases).newAggregatorFail = false ∧
          (⟨true, false, false, false, false⟩ : SnapPhases).reopenFilesFail = false ∧
          (⟨true, false, false, false, false⟩ : SnapPhases).writeSnapshotsFail = false) ∧
      (doSnapshotCommand 1000 ⟨true, false, false, false, false⟩).1 =
        (doSnapshotCommand 1000
          { (⟨true, false, false, false, false⟩ : SnapPhases) with snapshotBlocksFail := false }).1 ∧
      ((⟨true, false, false, false, false⟩ : SnapPhases).snapshotBlocksFail = true →
        SnapEvent.logSnapshotBlocksError ∈
          (doSnapshotCommand 1000 ⟨true, false, false, false, false⟩).2))) :=
  ⟨by decide, create_error_propagation 1000 ⟨true, false, false, false, false⟩ (by decide)⟩

/-- C7.  A `--segment.size` below 1000 is rejected with an error before any
I/O happens (no directory creation, no database open); a value of at least
1000 passes the check, and the configuration error is never returned in
that case. -/
theorem create_segment_size_validation (segmentSize : Nat) (ph : SnapPhases) :
    (segmentSize < 1000 →
      doSnapshotCommand segmentSize ph =
        (some (.tooSmallSegmentSize segmentSize), [])) ∧
    (1000 ≤ segmentSize →
      (∀ n, (doSnapshotCommand segmentSize ph).1 ≠ some (.tooSmallSegmentSize n)) ∧
        SnapEvent.mkdirSnap ∈ (doSnapshotCommand segmentSize ph).2) := by
  constructor
  · intro h
    rw [doSnapshotCommand, if_pos h]
  · intro h
    have hns : ¬ segmentSize < 1000 := by omega
    obtain ⟨sb, rf, na, rfi, ws⟩ := ph
    constructor
    · intro n
      simp only [doSnapshotCommand, if_neg hns]
      cases sb <;> cases rf <;> cases na <;> cases rfi <;> cases ws <;> simp
    · simp only [doSnapshotCommand, if_neg hns]
      cases sb <;> cases rf <;> cases na <;> cases rfi <;> cases ws <;> simp

/-- Witness for C7 (hypotheses are the two implications' antecedents at
concrete sizes). -/
theorem create_segment_size_validation_witness :
    ((999 : Nat) < 1000 →
      doSnapshotCommand 999 ⟨false, false, false, false, false⟩ =
        (some (.tooSmallSegmentSize 999), [])) ∧
    ((1000 : Nat) ≤ 999 →
      (∀ n, (doSnapshotCommand 999 ⟨false, false, false, false, false⟩).1 ≠
        some (.tooSmallSegmentSize n)) ∧
        SnapEvent.mkdirSnap ∈ (doSnapshotCommand 999 ⟨false, false, false, false, false⟩).2) :=
  create_segment_size_validation 999 ⟨false, false, false, false, false⟩

/-- Embedding of the `lastChunk` closure in `snapshotBlocks`: `lastKey` is
the big-endian block number of the last stored `BlockBody` key, `margin`
models the fixed reorg safety margin `params.FullImmutabilityThreshold` (a
constant of the surrounding system, treated as an injected value), and the
result is `last - last % blocksPerFile` exactly as in the source. -/
def lastChunk (lastKey margin blocksPerFile : Nat) : Nat :=
  let last := if margin < lastKey then lastKey - margin else 0
  last - last % blocksPerFile

/-- Embedding of the upper-bound selection of `snapshotBlocks`: an explicit
`--to` wins, otherwise the bound comes from `lastChunk` on the hot store's
last block key. -/
def snapshotBlocksLast (toBlock lastKey margin blocksPerFile : Nat) : Nat :=
  if 0 < toBlock then toBlock else lastChunk lastKey margin blocksPerFile

/-- The claim's description of the unbounded upper bound, stated
independently of the code: subtract the reorg safety margin from the last
stored block key (yielding 0 when the key does not exceed the margin), then
round down to the nearest multiple of the segment size. -/
def specUnboundedUpperBound (lastKey margin segmentSize : Nat) : Nat :=
  (if lastKey ≤ margin then 0 else lastKey - margin) / segmentSize * segmentSize

/-- C4.  With `to = 0` (unbounded), the selected upper bound equals the
spec's formula: last stored block key minus the reorg safety margin
(clamped to 0), rounded down to a multiple of the segment size. -/
theorem snapshotBlocks_unbounded_upper_bound (lastKey margin blocksPerFile : Nat)
    (h : 0 < blocksPerFile) :
    snapshotBlocksLast 0 lastKey margin blocksPerFile =
      specUnboundedUpperBound lastKey margin blocksPerFile := by
  rw [snapshotBlocksLast, if_neg (by omega), lastChunk, specUnboundedUpperBound]
  by_cases hm : margin < lastKey
  · rw [if_pos hm, if_neg (by omega)]
    have hdm := Nat.div_add_mod (lastKey - margin) blocksPerFile
    have hcomm : (lastKey - margin) / blocksPerFile * blocksPerFile =
        blocksPerFile * ((lastKey - margin) / blocksPerFile) := Nat.mul_comm _ _
    omega
  · rw [if_neg hm, if_pos (by omega)]
    simp

/-- Witness for C4 at `lastKey = 95000`, `margin = 90000`,
`blocksPerFile = 1000`. -/
theorem snapshotBlocks_unbounded_upper_bound_witness :
    (0 : Nat) < 1000 ∧
      snapshotBlocksLast 0 95000 90000 1000 = specUnboundedUpperBound 95000 90000 1000 :=
  ⟨by decide, snapshotBlocks_unbounded_upper_bound 95000 90000 1000 (by decide)⟩

/-! ## The access-list tracer (`core/vm/access_list_tracer.go`)

`accessList` is a Go `map[common.Address]accessListSlots` with
`accessListSlots = map[common.Hash]struct\x7b\x7d`.  A Go map is embedded as
an association list whose keys are pairwise distinct and whose slot lists
are duplicate-free (`accessListWF`); addresses and hashes are embedded as
natural numbers. -/

/-- `common.Address`, embedded as a natural number. -/
abbrev Address := Nat

/-- `common.Hash`, embedded as a natural number. -/
abbrev Hash := Nat

/-- The `accessList` accumulator map. -/
abbrev AccessListMap := List (Address × List Hash)

/-- Well-formedness every Go map representation enjoys: distinct keys, and
each slot set duplicate-free. -/
def accessListWF (al : AccessListMap) : Prop :=
  (al.map Prod.fst).Nodup ∧ ∀ p ∈ al, p.2.Nodup

instance (al : AccessListMap) : Decidable (accessListWF al) := by
  unfold accessListWF
  infer_instance

/-- Go's `_, present := al[address]` key test. -/
def containsKey (al : AccessListMap) (address : Address) : Bool :=
  al.any (fun p => p.1 == address)

/-- Go's `al[address]` slot-map read: the zero value (an empty map) when the
address is absent. -/
def lookupSlots (al : AccessListMap) (address : Address) : List Hash :=
  ((al.find? (fun p => p.1 == address)).map Prod.snd).getD []

/-! ### C8: tracer hook stubs -/

/-- The observable behavior of one tracer hook invocation: it either
completes normally (returning its Go result, `nil` for the error-returning
hooks) or aborts the process. -/
inductive HookBehavior where
  | completes
  | abortsWith (msg : String)
deriving DecidableEq, Repr

/-- `AccessListTracer.CaptureAccountWrite` is the stub
`panic("implement me")`. -/
def captureAccountWrite : HookBehavior := .abortsWith "implement me"

/-- `AccessListTracer.CaptureStart` is the stub `panic("implement me")`. -/
def captureStart : HookBehavior := .abortsWith "implement me"

/-- `AccessListTracer.CaptureEnter` is the stub `panic("implement me")`. -/
def captureEnter : HookBehavior := .abortsWith "implement me"

/-- `AccessListTracer.CaptureAccountRead` returns `nil`. -/
def captureAccountRead : HookBehavior := .completes

/-- `AccessListTracer.CaptureTxStart` has an empty body. -/
def captureTxStart : HookBehavior := .completes

/-- `AccessListTracer.CaptureTxEnd` has an empty body. -/
def captureTxEnd : HookBehavior := .completes

/-- `AccessListTracer.CaptureState` records touched addresses and slots and
completes normally. -/
def captureState : HookBehavior := .completes

/-- `AccessListTracer.CaptureFault` has an empty body. -/
def captureFault : HookBehavior := .completes

/-- `AccessListTracer.CaptureEnd` has an empty body. -/
def captureEnd : HookBehavior := .completes

/-- `AccessListTracer.CaptureExit` has an empty body. -/
def captureExit : HookBehavior := .completes

/-- `AccessListTracer.CaptureSelfDestruct` has an empty body. -/
def captureSelfDestruct : HookBehavior := .completes

/-- C8 counterexample: the unimplemented hooks `CaptureAccountWrite`,
`CaptureStart` and `CaptureEnter` abort the process via
`panic("implement me")`; none of them completes with any result variant, so
none returns a NotSupported/Unimplemented value. -/
theorem tracer_hooks_abort_counterexample :
    captureAccountWrite = HookBehavior.abortsWith "implement me" ∧
    captureStart = HookBehavior.abortsWith "implement me" ∧
    captureEnter = HookBehavior.abortsWith "implement me" ∧
    captureAccountWrite ≠ HookBehavior.completes ∧
    captureStart ≠ HookBehavior.completes ∧
    captureEnter ≠ HookBehavior.completes := by
  refine ⟨rfl, rfl, rfl, ?_, ?_, ?_⟩ <;> intro h <;> cases h

/-- Amended C8: the three unimplemented hooks of `AccessListTracer` abort
via `panic("implement me")` — no NotSupported/Unimplemented result variant
exists in the code — while every other hook completes normally. -/
theorem tracer_hook_behavior :
    captureAccountWrite = HookBehavior.abortsWith "implement me" ∧
    captureStart = HookBehavior.abortsWith "implement me" ∧
    captureEnter = HookBehavior.abortsWith "implement me" ∧
    captureAccountRead = HookBehavior.completes ∧
    captureTxStart = HookBehavior.completes ∧
    captureTxEnd = HookBehavior.completes ∧
    captureState = HookBehavior.completes ∧
    captureFault = HookBehavior.completes ∧
    captureEnd = HookBehavior.completes ∧
    captureExit = HookBehavior.completes ∧
    captureSelfDestruct = HookBehavior.completes :=
  ⟨rfl, rfl, rfl, rfl, rfl, rfl, rfl, rfl, rfl, rfl, rfl⟩

/-! ### C9: `accessList.equal` -/

/-- Embedding of `accessList.equal`: the account-count check, the two
key-containment loops, then per address the slot-count check and the two
slot-containment loops.  Go's early `return false` becomes `&&`;
`other[addr]` inside the slot loops is `lookupSlots` with the zero-value
default. -/
def equal (al other : AccessListMap) : Bool :=
  (al.length == other.length) &&
  al.all (fun p => containsKey other p.1) &&
  other.all (fun p => containsKey al p.1) &&
  al.all (fun p =>
    (p.2.length == (lookupSlots other p.1).length) &&
    p.2.all (fun h => (lookupSlots other p.1).contains h) &&
    (lookupSlots other p.1).all (fun h => p.2.contains h))

/-- The spec-side notion the claim compares against: the two maps hold the
same set of addresses and, per address, the same set of storage slots. -/
def sameContent (al other : AccessListMap) : Prop :=
  (∀ a, containsKey al a = containsKey other a) ∧
  (∀ a h, h ∈ lookupSlots al a ↔ h ∈ lookupSlots other a)

/-- Key membership is membership in the key projection. -/
theorem containsKey_iff (al : AccessListMap) (a : Address) :
    containsKey al a = true ↔ a ∈ al.map Prod.fst := by
  simp [containsKey, List.any_eq_true, List.mem_map]

/-- An entry of the map is present as a key. -/
theorem containsKey_of_mem (al : AccessListMap) (p : Address × List Hash) (hp : p ∈ al) :
    containsKey al p.1 = true :=
  (containsKey_iff al p.1).2 (List.mem_map_of_mem Prod.fst hp)

/-- With distinct keys, looking up an entry's key returns its slot list. -/
theorem lookupSlots_eq_of_mem (al : AccessListMap) (p : Address × List Hash)
    (hnd : (al.map Prod.fst).Nodup) (hmem : p ∈ al) : lookupSlots al p.1 = p.2 := by
  induction al with
  | nil => simp at hmem
  | cons q t ih =>
    rw [List.map_cons, List.nodup_cons] at hnd
    rcases List.mem_cons.1 hmem with rfl | hmem'
    · rw [lookupSlots, List.find?_cons]
      simp
    · have hne : (q.1 == p.1) = false := by
        rw [beq_eq_false_iff_ne]
        intro he
        exact hnd.1 (he ▸ List.mem_map_of_mem Prod.fst hmem')
      rw [lookupSlots, List.find?_cons, hne]
      exact ih hnd.2 hmem'

/-- Looking up an absent key returns the zero value. -/
theorem lookupSlots_eq_nil (al : AccessListMap) (a : Address)
    (h : containsKey al a = false) : lookupSlots al a = [] := by
  have hfind : al.find? (fun p => p.1 == a) = none := by
    rw [List.find?_eq_none]
    intro p hp hbeq
    have htrue : containsKey al a = true := by
      rw [containsKey, List.any_eq_true]
      exact ⟨p, hp, hbeq⟩
    rw [h] at htrue
    cases htrue
  rw [lookupSlots, hfind]
  rfl

/-- A lookup result is the zero value or some entry's slot list. -/
theorem lookupSlots_cases (al : AccessListMap) (a : Address) :
    lookupSlots al a = [] ∨ ∃ p ∈ al, p.1 = a ∧ lookupSlots al a = p.2 := by
  cases hf : al.find? (fun p => p.1 == a) with
  | none => left; rw [lookupSlots, hf]; rfl
  | some p =>
    right
    refine ⟨p, List.mem_of_find?_eq_some hf, by simpa using List.find?_some hf, ?_⟩
    rw [lookupSlots, hf]
    rfl

/-- In a well-formed map every lookup result is duplicate-free. -/
theorem lookupSlots_nodup (al : AccessListMap) (hal : accessListWF al) (a : Address) :
    (lookupSlots al a).Nodup := by
  rcases lookupSlots_cases al a with h | ⟨p, hp, _, h⟩
  · simp [h]
  · rw [h]
    exact hal.2 p hp

/-- `equal` decides exactly the set-of-(address, set-of-slots)
comparison. -/
theorem equal_eq_true_iff (al other : AccessListMap)
    (hal : accessListWF al) (hoth : accessListWF other) :
    equal al other = true ↔ sameContent al other := by
  constructor
  · intro h
    rw [equal] at h
    simp only [Bool.and_eq_true, List.all_eq_true, beq_iff_eq] at h
    obtain ⟨⟨⟨hlen, h1⟩, h2⟩, h3⟩ := h
    have hkeys : ∀ a, containsKey al a = containsKey other a := by
      intro a
      cases hca : containsKey al a
      · cases hco : containsKey other a
        · rfl
        · exfalso
          rw [containsKey, List.any_eq_true] at hco
          obtain ⟨q, hq, hbeq⟩ := hco
          have hq1 : q.1 = a := by simpa using hbeq
          have := h2 q hq
          rw [hq1, hca] at this
          cases this
      · cases hco : containsKey other a
        · exfalso
          rw [containsKey, List.any_eq_true] at hca
          obtain ⟨p, hp, hbeq⟩ := hca
          have hp1 : p.1 = a := by simpa using hbeq
          have := h1 p hp
          rw [hp1, hco] at this
          cases this
        · rfl
    refine ⟨hkeys, ?_⟩
    intro a x
    cases hca : containsKey al a
    · have hco : containsKey other a = false := by rw [← hkeys a, hca]
      rw [lookupSlots_eq_nil al a hca, lookupSlots_eq_nil other a hco]
    · rw [containsKey, List.any_eq_true] at hca
      obtain ⟨p, hp, hbeq⟩ := hca
      have hp1 : p.1 = a := by simpa using hbeq
      subst hp1
      rw [lookupSlots_eq_of_mem al p hal.1 hp]
      obtain ⟨⟨_, hsub⟩, hsup⟩ := h3 p hp
      constructor
      · intro hx
        simpa using hsub x hx
      · intro hx
        simpa using hsup x hx
  · rintro ⟨hkeys, hslots⟩
    rw [equal]
    simp only [Bool.and_eq_true, List.all_eq_true, beq_iff_eq]
    have hperm : (al.map Prod.fst).Perm (other.map Prod.fst) := by
      rw [List.perm_ext_iff_of_nodup hal.1 hoth.1]
      intro a
      rw [← containsKey_iff, ← containsKey_iff, hkeys a]
    refine ⟨⟨⟨?_, ?_⟩, ?_⟩, ?_⟩
    · have := hperm.length_eq
      simpa using this
    · intro p hp
      rw [← hkeys p.1]
      exact containsKey_of_mem al p hp
    · intro q hq
      rw [hkeys q.1]
      exact containsKey_of_mem other q hq
    · intro p hp
      have hl : lookupSlots al p.1 = p.2 := lookupSlots_eq_of_mem al p hal.1 hp
      have hiff : ∀ x, x ∈ p.2 ↔ x ∈ lookupSlots other p.1 := by
        intro x
        rw [← hl]
        exact hslots p.1 x
      have hnd1 : p.2.Nodup := hal.2 p hp
      have hnd2 : (lookupSlots other p.1).Nodup := lookupSlots_nodup other hoth p.1
      have hperm2 : p.2.Perm (lookupSlots other p.1) :=
        (List.perm_ext_iff_of_nodup hnd1 hnd2).2 hiff
      refine ⟨⟨hperm2.length_eq, ?_⟩, ?_⟩
      · intro x hx
        simpa using (hiff x).1 hx
      · intro x hx
        simpa using (hiff x).2 hx

/-- `sameContent` is symmetric. -/
theorem sameContent_symm (al other : AccessListMap) (h : sameContent al other) :
    sameContent other al :=
  ⟨fun a => (h.1 a).symm, fun a x => (h.2 a x).symm⟩

/-- Key containment only depends on the map's contents, not entry order. -/
theorem containsKey_perm (al al₂ : AccessListMap) (hp : al.Perm al₂) (a : Address) :
    containsKey al₂ a = containsKey al a := by
  rw [Bool.eq_iff_iff, containsKey_iff, containsKey_iff]
  exact ((hp.map Prod.fst).mem_iff).symm

/-- With distinct keys, lookups only depend on the map's contents. -/
theorem lookupSlots_perm (al al₂ : AccessListMap) (hnd : (al.map Prod.fst).Nodup)
    (hp : al.Perm al₂) (a : Address) : lookupSlots al₂ a = lookupSlots al a := by
  have hnd₂ : (al₂.map Prod.fst).Nodup := ((hp.map Prod.fst).nodup_iff).1 hnd
  cases hc : containsKey al a
  · rw [lookupSlots_eq_nil al a hc,
      lookupSlots_eq_nil al₂ a (by rw [containsKey_perm al al₂ hp a, hc])]
  · rw [containsKey, List.any_eq_true] at hc
    obtain ⟨p, hpm, hbeq⟩ := hc
    have hp1 : p.1 = a := by simpa using hbeq
    subst hp1
    rw [lookupSlots_eq_of_mem al p hnd hpm,
      lookupSlots_eq_of_mem al₂ p hnd₂ (hp.mem_iff.1 hpm)]

/-- C9.  `accessList.equal` returns `true` exactly when the two maps hold
the same address set and, per shared address, the same slot set; it is
symmetric, and its result is unchanged under any reordering of either map's
entries (hence independent of insertion order). -/
theorem accessList_equal_characterization (al other : AccessListMap)
    (hal : accessListWF al) (hoth : accessListWF other) :
    (equal al other = true ↔ sameContent al other) ∧
    equal al other = equal other al ∧
    (∀ al₂, al.Perm al₂ → equal al₂ other = equal al other) := by
  refine ⟨equal_eq_true_iff al other hal hoth, ?_, ?_⟩
  · rw [Bool.eq_iff_iff, equal_eq_true_iff al other hal hoth,
      equal_eq_true_iff other al hoth hal]
    exact ⟨sameContent_symm al other, sameContent_symm other al⟩
  · intro al₂ hp
    have hal₂ : accessListWF al₂ :=
      ⟨((hp.map Prod.fst).nodup_iff).1 hal.1, fun p hpm => hal.2 p (hp.mem_iff.2 hpm)⟩
    rw [Bool.eq_iff_iff, equal_eq_true_iff al₂ other hal₂ hoth,
      equal_eq_true_iff al other hal hoth]
    constructor
    · rintro ⟨h1, h2⟩
      refine ⟨fun a => ?_, fun a x => ?_⟩
      · rw [← containsKey_perm al al₂ hp a, h1 a]
      · rw [← lookupSlots_perm al al₂ hal.1 hp a]
        exact h2 a x
    · rintro ⟨h1, h2⟩
      refine ⟨fun a => ?_, fun a x => ?_⟩
      · rw [containsKey_perm al al₂ hp a, h1 a]
      · rw [lookupSlots_perm al al₂ hal.1 hp a]
        exact h2 a x

/-- Witness for C9 on two concrete maps whose entries and slots are listed
in different orders. -/
theorem accessList_equal_characterization_witness :
    accessListWF [(1, [10, 11]), (2, [])] ∧ accessListWF [(2, []), (1, [11, 10])] ∧
      ((equal [(1, [10, 11]), (2, [])] [(2, []), (1, [11, 10])] = true ↔
          sameContent [(1, [10, 11]), (2, [])] [(2, []), (1, [11, 10])]) ∧
        equal [(1, [10, 11]), (2, [])] [(2, []), (1, [11, 10])] =
          equal [(2, []), (1, [11, 10])] [(1, [10, 11]), (2, [])] ∧
        (∀ al₂, List.Perm [(1, [10, 11]), (2, [])] al₂ →
          equal al₂ [(2, []), (1, [11, 10])] =
            equal [(1, [10, 11]), (2, [])] [(2, []), (1, [11, 10])])) :=
  ⟨by decide, by decide,
    accessList_equal_characterization [(1, [10, 11]), (2, [])] [(2, []), (1, [11, 10])]
      (by decide) (by decide)⟩

/-! ### C10: `NewAccessListTracer` seeding -/

/-- Embedding of `newAccessList`. -/
def newAccessList : AccessListMap := []

/-- Embedding of `accessList.addAddress`: insert the address with an empty
slot set when not previously present. -/
def addAddress (al : AccessListMap) (address : Address) : AccessListMap :=
  if containsKey al address then al else al ++ [(address, [])]

/-- Embedding of `accessList.addSlot`: ensure the address is present, then
insert the slot into its slot set. -/
def addSlot (al : AccessListMap) (address : Address) (slot : Hash) : AccessListMap :=
  (addAddress al address).map (fun p =>
    if p.1 == address then
      (p.1, if p.2.contains slot then p.2 else p.2 ++ [slot])
    else p)

/-- The exclusion set built by `NewAccessListTracer`: the `from` address,
the `to` address, and every precompile. -/
def exclList (fromAddr toAddr : Address) (precompiles : List Address) : List Address :=
  fromAddr :: toAddr :: precompiles

/-- One iteration of the seeding loop of `NewAccessListTracer`: `addAddress`
only for non-excluded addresses, then `addSlot` for every storage key of the
entry (unconditionally). -/
def processEntry (excl : List Address) (list : AccessListMap)
    (e : Address × List Hash) : AccessListMap :=
  e.2.foldl (fun l slot => addSlot l e.1 slot)
    (if excl.contains e.1 then list else addAddress list e.1)

/-- Embedding of the seeding loop of `NewAccessListTracer`: the tracer's
accumulated list after the initial access list `acl` has been folded in. -/
def newAccessListTracer (acl : List (Address × List Hash)) (fromAddr toAddr : Address)
    (precompiles : List Address) : AccessListMap :=
  acl.foldl (processEntry (exclList fromAddr toAddr precompiles)) newAccessList

/-- `addSlot` does not change the key sequence produced by `addAddress`. -/
theorem keys_addSlot (al : AccessListMap) (a : Address) (s : Hash) :
    (addSlot al a s).map Prod.fst = (addAddress al a).map Prod.fst := by
  rw [addSlot, List.map_map]
  apply List.map_congr_left
  intro p _
  show Prod.fst (if p.1 == a then (p.1, _) else p) = p.1
  split <;> rfl

/-- `addAddress` makes its address present. -/
theorem containsKey_addAddress_self (al : AccessListMap) (a : Address) :
    containsKey (addAddress al a) a = true := by
  rw [addAddress]
  split
  · assumption
  · simp [containsKey, List.any_append]

/-- `addAddress` keeps every present key present. -/
theorem containsKey_addAddress_mono (al : AccessListMap) (a b : Address)
    (h : containsKey al b = true) : containsKey (addAddress al a) b = true := by
  rw [addAddress]
  split
  · exact h
  · simp [containsKey, List.any_append]
    left
    simpa [containsKey] using h

/-- `addAddress` does not affect other keys. -/
theorem containsKey_addAddress_other (al : AccessListMap) (a b : Address)
    (hne : a ≠ b) : containsKey (addAddress al a) b = containsKey al b := by
  rw [addAddress]
  split
  · rfl
  · simp [containsKey, List.any_append, hne]

/-- Key presence after `addSlot` is key presence after `addAddress`. -/
theorem containsKey_addSlot (al : AccessListMap) (a s : Nat) (b : Address) :
    containsKey (addSlot al a s) b = containsKey (addAddress al a) b := by
  rw [Bool.eq_iff_iff, containsKey_iff, containsKey_iff, keys_addSlot]

/-- `addAddress` never changes a lookup result (an added address starts with
the empty slot set, which is also the absent default). -/
theorem lookupSlots_addAddress (al : AccessListMap) (a b : Address) :
    lookupSlots (addAddress al a) b = lookupSlots al b := by
  rw [addAddress]
  split
  · rfl
  · rw [lookupSlots, lookupSlots, List.find?_append]
    cases hf : al.find? (fun p => p.1 == b) with
    | some p => rfl
    | none =>
      cases hab : a == b <;> simp [List.find?_cons, hab]

/-- `find?` by key commutes with any key-preserving entry map. -/
theorem find?_map_key_preserving (l : AccessListMap)
    (f : Address × List Hash → Address × List Hash)
    (hf : ∀ p, (f p).1 = p.1) (b : Address) :
    (l.map f).find? (fun p => p.1 == b) = (l.find? (fun p => p.1 == b)).map f := by
  induction l with
  | nil => rfl
  | cons q t ih =>
    rw [List.map_cons, List.find?_cons, List.find?_cons, hf q]
    cases hq : (q.1 == b) <;> simp [hq, ih]

/-- `addSlot` does not affect other keys' lookups. -/
theorem lookupSlots_addSlot_other (al : AccessListMap) (a : Address) (s : Hash)
    (b : Address) (hne : b ≠ a) :
    lookupSlots (addSlot al a s) b = lookupSlots al b := by
  rw [addSlot, lookupSlots,
    find?_map_key_preserving _ _ (fun p => by split <;> rfl) b]
  rw [← lookupSlots_addAddress al a b, lookupSlots]
  cases hf : (addAddress al a).find? (fun p => p.1 == b) with
  | none => rfl
  | some p =>
    have hp1 : p.1 = b := by simpa using List.find?_some hf
    simp [hp1, hne]

/-- `addSlot` inserts the slot into the address's slot set and keeps the
existing slots. -/
theorem lookupSlots_addSlot_self (al : AccessListMap) (a : Address) (s : Hash) :
    lookupSlots (addSlot al a s) a =
      if (lookupSlots al a).contains s then lookupSlots al a
      else lookupSlots al a ++ [s] := by
  have hca : containsKey (addAddress al a) a = true := containsKey_addAddress_self al a
  rw [containsKey, List.any_eq_true] at hca
  obtain ⟨p, hp, hbeq⟩ := hca
  have hfind : ∃ q, (addAddress al a).find? (fun r => r.1 == a) = some q := by
    have hsome : ((addAddress al a).find? (fun r => r.1 == a)).isSome := by
      rw [List.find?_isSome]
      exact ⟨p, hp, hbeq⟩
    exact Option.isSome_iff_exists.1 hsome
  obtain ⟨q, hq⟩ := hfind
  have hq1 : q.1 = a := by simpa using List.find?_some hq
  have hlk : lookupSlots al a = q.2 := by
    rw [← lookupSlots_addAddress al a a, lookupSlots, hq]
    rfl
  rw [addSlot, lookupSlots,
    find?_map_key_preserving _ _ (fun p => by split <;> rfl) a, hq]
  simp only [Option.map_some']
  rw [if_pos (by simpa using hq1)]
  rw [hlk]
  rfl

/-- After `addSlot` the slot is present for the address. -/
theorem mem_lookupSlots_addSlot_self (al : AccessListMap) (a : Address) (s : Hash) :
    s ∈ lookupSlots (addSlot al a s) a := by
  rw [lookupSlots_addSlot_self]
  split
  · next h => simpa using h
  · simp

/-- `addSlot` keeps every present slot present. -/
theorem mem_lookupSlots_addSlot_mono (al : AccessListMap) (a : Address) (s : Hash)
    (b : Address) (x : Hash) (hx : x ∈ lookupSlots al b) :
    x ∈ lookupSlots (addSlot al a s) b := by
  by_cases hba : b = a
  · subst hba
    rw [lookupSlots_addSlot_self]
    split
    · exact hx
    · simp [hx]
  · rw [lookupSlots_addSlot_other al a s b hba]
    exact hx

/-- `addSlot` keeps every present key present. -/
theorem containsKey_addSlot_mono (al : AccessListMap) (a : Address) (s : Hash)
    (b : Address) (h : containsKey al b = true) :
    containsKey (addSlot al a s) b = true := by
  rw [containsKey_addSlot]
  exact containsKey_addAddress_mono al a b h

/-- The slot fold of one entry keeps every present slot present. -/
theorem slotFold_mem_mono (a : Address) (ss : List Hash) :
    ∀ (l : AccessListMap) (b : Address) (x : Hash), x ∈ lookupSlots l b →
      x ∈ lookupSlots (ss.foldl (fun l slot => addSlot l a slot) l) b := by
  induction ss with
  | nil => intro l b x hx; exact hx
  | cons s t ih =>
    intro l b x hx
    exact ih _ b x (mem_lookupSlots_addSlot_mono l a s b x hx)

/-- The slot fold of one entry keeps every present key present. -/
theorem slotFold_contains_mono (a : Address) (ss : List Hash) :
    ∀ (l : AccessListMap) (b : Address), containsKey l b = true →
      containsKey (ss.foldl (fun l slot => addSlot l a slot) l) b = true := by
  induction ss with
  | nil => intro l b h; exact h
  | cons s t ih =>
    intro l b h
    exact ih _ b (containsKey_addSlot_mono l a s b h)

/-- The slot fold of one entry records each of its slots. -/
theorem slotFold_mem_self (a : Address) (ss : List Hash) :
    ∀ (l : AccessListMap) (x : Hash), x ∈ ss →
      x ∈ lookupSlots (ss.foldl (fun l slot => addSlot l a slot) l) a := by
  induction ss with
  | nil => intro l x hx; simp at hx
  | cons s t ih =>
    intro l x hx
    rcases List.mem_cons.1 hx with rfl | hx'
    · exact slotFold_mem_mono a t _ a x (mem_lookupSlots_addSlot_self l a x)
    · exact ih _ x hx'

/-- Processing any entry keeps every present key present. -/
theorem processEntry_contains_mono (excl : List Address) (l : AccessListMap)
    (e : Address × List Hash) (b : Address) (h : containsKey l b = true) :
    containsKey (processEntry excl l e) b = true := by
  rw [processEntry]
  apply slotFold_contains_mono
  split
  · exact h
  · exact containsKey_addAddress_mono l e.1 b h

/-- Processing any entry keeps every present slot present. -/
theorem processEntry_mem_mono (excl : List Address) (l : AccessListMap)
    (e : Address × List Hash) (b : Address) (x : Hash)
    (hx : x ∈ lookupSlots l b) : x ∈ lookupSlots (processEntry excl l e) b := by
  rw [processEntry]
  apply slotFold_mem_mono
  split
  · exact hx
  · rw [lookupSlots_addAddress]
    exact hx

/-- The outer seeding fold keeps present keys and slots present. -/
theorem tracerFold_mono (excl : List Address) (entries : List (Address × List Hash)) :
    ∀ (l : AccessListMap) (b : Address),
      (containsKey l b = true →
        containsKey (entries.foldl (processEntry excl) l) b = true) ∧
      (∀ x, x ∈ lookupSlots l b →
        x ∈ lookupSlots (entries.foldl (processEntry excl) l) b) := by
  induction entries with
  | nil => intro l b; exact ⟨fun h => h, fun x hx => hx⟩
  | cons e t ih =>
    intro l b
    refine ⟨fun h => ?_, fun x hx => ?_⟩
    · exact (ih _ b).1 (processEntry_contains_mono excl l e b h)
    · exact (ih _ b).2 x (processEntry_mem_mono excl l e b x hx)

/-- The slot fold of one entry does not affect other keys' presence. -/
theorem slotFold_contains_other (a : Address) (ss : List Hash) :
    ∀ (l : AccessListMap) (b : Address), a ≠ b →
      containsKey (ss.foldl (fun l slot => addSlot l a slot) l) b = containsKey l b := by
  induction ss with
  | nil => intro l b _; rfl
  | cons s t ih =>
    intro l b hne
    rw [List.foldl_cons, ih _ b hne, containsKey_addSlot,
      containsKey_addAddress_other l a b hne]

/-- An excluded address all of whose initial entries carry no storage keys
is never inserted by the seeding fold. -/
theorem tracerFold_not_contains (excl : List Address) (a : Address)
    (hexcl : excl.contains a = true) (entries : List (Address × List Hash)) :
    ∀ l, containsKey l a = false → (∀ e ∈ entries, e.1 = a → e.2 = []) →
      containsKey (entries.foldl (processEntry excl) l) a = false := by
  induction entries with
  | nil => intro l hl _; exact hl
  | cons e t ih =>
    intro l hl hall
    rw [List.foldl_cons]
    refine ih _ ?_ (fun e₂ h2 => hall e₂ (List.mem_cons_of_mem e h2))
    rw [processEntry]
    by_cases hea : e.1 = a
    · rw [if_pos (by rw [hea]; exact hexcl)]
      rw [hall e (List.mem_cons_self e t) hea]
      exact hl
    · rw [slotFold_contains_other e.1 e.2 _ a hea]
      split
      · exact hl
      · rw [containsKey_addAddress_other l e.1 a hea]
        exact hl

/-- Processing an entry with at least one storage key makes its address
present, excluded or not. -/
theorem processEntry_contains_self_of_ne (excl : List Address) (l : AccessListMap)
    (e : Address × List Hash) (hne : e.2 ≠ []) :
    containsKey (processEntry excl l e) e.1 = true := by
  rw [processEntry]
  cases he2 : e.2 with
  | nil => exact absurd he2 hne
  | cons s t =>
    rw [List.foldl_cons]
    apply slotFold_contains_mono
    rw [containsKey_addSlot]
    exact containsKey_addAddress_self _ _

/-- Processing an entry records each of its storage keys under its
address. -/
theorem processEntry_mem_self (excl : List Address) (l : AccessListMap)
    (e : Address × List Hash) (x : Hash) (hx : x ∈ e.2) :
    x ∈ lookupSlots (processEntry excl l e) e.1 := by
  rw [processEntry]
  exact slotFold_mem_self e.1 e.2 _ x hx

/-- C10.  An initial access-list entry whose address is excluded (`from`,
`to`, or a precompile) but which carries at least one storage key is still
inserted into the tracer's list with all its slots, because `addSlot` adds
the address unconditionally; only excluded addresses all of whose initial
entries carry no storage keys are kept out. -/
theorem newAccessListTracer_excluded_with_slots
    (acl : List (Address × List Hash)) (fromAddr toAddr : Address)
    (precompiles : List Address) (e : Address × List Hash)
    (he : e ∈ acl) (hex : e.1 ∈ exclList fromAddr toAddr precompiles)
    (hne : e.2 ≠ []) :
    containsKey (newAccessListTracer acl fromAddr toAddr precompiles) e.1 = true ∧
    (∀ s ∈ e.2, s ∈ lookupSlots (newAccessListTracer acl fromAddr toAddr precompiles) e.1) ∧
    (∀ a ∈ exclList fromAddr toAddr precompiles,
      (∀ e₂ ∈ acl, e₂.1 = a → e₂.2 = []) →
      containsKey (newAccessListTracer acl fromAddr toAddr precompiles) a = false) := by
  obtain ⟨l₁, l₂, rfl⟩ := List.append_of_mem he
  refine ⟨?_, ?_, ?_⟩
  · rw [newAccessListTracer, List.foldl_append, List.foldl_cons]
    exact (tracerFold_mono _ l₂ _ e.1).1
      (processEntry_contains_self_of_ne _ _ e hne)
  · intro s hs
    rw [newAccessListTracer, List.foldl_append, List.foldl_cons]
    exact (tracerFold_mono _ l₂ _ e.1).2 s (processEntry_mem_self _ _ e s hs)
  · intro a ha hall
    rw [newAccessListTracer]
    exact tracerFold_not_contains _ a (by simpa using ha) _ newAccessList rfl hall

/-- Witness for C10: the initial list carries the excluded `from` address
`5` with storage key `42`; the tracer still records it. -/
theorem newAccessListTracer_excluded_with_slots_witness :
    ((5, [42]) ∈ [((5 : Address), [(42 : Hash)])]) ∧
      ((5 : Address), [(42 : Hash)]).1 ∈ exclList 5 6 [] ∧
      ((5 : Address), [(42 : Hash)]).2 ≠ [] ∧
      (containsKey (newAccessListTracer [((5 : Address), [(42 : Hash)])] 5 6 [])
          ((5 : Address), [(42 : Hash)]).1 = true ∧
        (∀ s ∈ ((5 : Address), [(42 : Hash)]).2,
          s ∈ lookupSlots (newAccessListTracer [((5 : Address), [(42 : Hash)])] 5 6 [])
            ((5 : Address), [(42 : Hash)]).1) ∧
        (∀ a ∈ exclList 5 6 [],
          (∀ e₂ ∈ [((5 : Address), [(42 : Hash)])], e₂.1 = a → e₂.2 = []) →
          containsKey (newAccessListTracer [((5 : Address), [(42 : Hash)])] 5 6 []) a = false)) :=
  ⟨by decide, by decide, by decide,
    newAccessListTracer_excluded_with_slots [((5 : Address), [(42 : Hash)])] 5 6 []
      ((5 : Address), [(42 : Hash)]) (by decide) (by decide) (by decide)⟩

end Erigon
